import Mathlib

/-!
# Matrix functional calculus of qpp (`include/functional.h`)

A shallow embedding of `funm`, `fun`, `absm`, `expm`, `logm`, `sqrtm`, `sinm`
and `cosm`, in exact arithmetic: `types::cplx` is `ℂ`, and the elementary
functions of `<cmath>` are the ones of Mathlib (principal branches).

The Eigen eigenvalue solver is an external library; it is a parameter `es`
of every operation that uses it, and theorems state what they assume of the
decomposition it returns. `evects.inverse()` is the matrix inverse, which is
only meaningful when the eigenvector matrix is invertible.

`std::log(0)` is infinite whereas `Complex.log 0 = 0`; no theorem below
depends on the value of the logarithm at `0`.
-/

namespace qpp

open Matrix

open scoped ComplexOrder

/-! ## Data model -/

/-- Dense matrix whose shape is known at run time
(`Eigen::Matrix<α, Dynamic, Dynamic>`): `rows()`, `cols()` and the
coefficient access `A(i, j)`. -/
structure Mat (α : Type) where
  rows : ℕ
  cols : ℕ
  coeff : Matrix (Fin rows) (Fin cols) α

/-- The run-time matrix with the given `m × n` table of coefficients. -/
def Mat.ofMatrix {α : Type} {m n : ℕ} (M : Matrix (Fin m) (Fin n) α) : Mat α :=
  ⟨m, n, M⟩

/-- The exceptions of `<stdexcept>` the header throws. -/
inductive Exception where
  | runtime_error (what : String)
  deriving DecidableEq, Repr

/-- Scalar types that `A.template cast<types::cplx>()` promotes to complex. -/
class CplxCast (α : Type) where
  cplx : α → ℂ

instance instCplxCastComplex : CplxCast ℂ := ⟨fun z => z⟩

instance instCplxCastReal : CplxCast ℝ := ⟨fun r => (r : ℂ)⟩

/-- The promotion is compatible with the ring operations and with
conjugation (true of `double → complex<double>` and of the identity). -/
class LawfulCplxCast (α : Type) [CommRing α] [StarRing α] [CplxCast α] : Prop where
  map_zero : CplxCast.cplx (0 : α) = 0
  map_add : ∀ x y : α, CplxCast.cplx (x + y) = CplxCast.cplx x + CplxCast.cplx y
  map_mul : ∀ x y : α, CplxCast.cplx (x * y) = CplxCast.cplx x * CplxCast.cplx y
  map_star : ∀ x : α, CplxCast.cplx (star x) = star (CplxCast.cplx x)

instance instLawfulCplxCastComplex : LawfulCplxCast ℂ where
  map_zero := rfl
  map_add _ _ := rfl
  map_mul _ _ := rfl
  map_star _ := rfl

instance instLawfulCplxCastReal : LawfulCplxCast ℝ where
  map_zero := Complex.ofReal_zero
  map_add := Complex.ofReal_add
  map_mul := Complex.ofReal_mul
  map_star x := by
    show ((star x : ℝ) : ℂ) = star (x : ℂ)
    simp

/-- `A.template cast<types::cplx>()`: same shape, every coefficient promoted. -/
def Mat.cast {α : Type} [CplxCast α] (A : Mat α) : Mat ℂ :=
  ⟨A.rows, A.cols, fun i j => CplxCast.cplx (A.coeff i j)⟩

/-- A run-time matrix with as many columns as rows, as a square table. -/
def Mat.toSquare {α : Type} (A : Mat α) (h : A.rows = A.cols) :
    Matrix (Fin A.rows) (Fin A.rows) α :=
  fun i j => A.coeff i (Fin.cast h j)

/-- Modelled from the spec: `internal::_check_square_mat` of `internal.h`,
the square-matrix validation helper, which is not part of the sources at
hand: it holds exactly of the matrices with `rows() == cols()`. -/
def internal._check_square_mat {α : Type} (A : Mat α) : Bool :=
  decide (A.rows = A.cols)

/-- What `funm` reads off an `Eigen::ComplexEigenSolver<Eigen::MatrixXcd>`
built on an `n × n` matrix: `eigenvectors()` and `eigenvalues()`. -/
structure ComplexEigenSolver (n : ℕ) where
  eigenvectors : Matrix (Fin n) (Fin n) ℂ
  eigenvalues : Fin n → ℂ

/-- The eigenvalue solver of the Eigen library, a black box: from a square
complex matrix to its eigenvectors and eigenvalues. -/
abbrev Solver : Type :=
  (n : ℕ) → Matrix (Fin n) (Fin n) ℂ → ComplexEigenSolver n

/-- The decomposition `s` is a valid eigendecomposition of `M`: the
eigenvector matrix is invertible and `M = V · diag(Λ) · V⁻¹`. -/
def ValidEig {n : ℕ} (M : Matrix (Fin n) (Fin n) ℂ) (s : ComplexEigenSolver n) : Prop :=
  IsUnit s.eigenvectors.det ∧
    M = s.eigenvectors * Matrix.diagonal s.eigenvalues * s.eigenvectors⁻¹

/-- The external calls a run of `funm` makes, in order. -/
inductive Event where
  | eigensolve (n : ℕ) (M : Matrix (Fin n) (Fin n) ℂ)
  | apply (x : ℂ)

/-! ## `funm` -/

/-- One pass of the body of the loop of `funm`,
`evals(i) = (*f)(evals(i))`; the second component records the arguments
`f` has been called with so far. -/
def funmStep {n : ℕ} (f : ℂ → ℂ) (st : (Fin n → ℂ) × List ℂ) (i : Fin n) :
    (Fin n → ℂ) × List ℂ :=
  (Function.update st.1 i (f (st.1 i)), st.2 ++ [st.1 i])

/-- The loop `for (int i = 0; i < evals.rows(); i++)` of `funm`. -/
def funmLoop {n : ℕ} (f : ℂ → ℂ) (evals : Fin n → ℂ) : (Fin n → ℂ) × List ℂ :=
  (List.finRange n).foldl (funmStep f) (evals, [])

/-- The body of `funm`, with the log of its external calls: the result (a
matrix or the exception thrown) and the calls made to the eigenvalue solver
and to `f`. -/
noncomputable def funmRun {α : Type} [CplxCast α] (es : Solver) (A : Mat α) (f : ℂ → ℂ) :
    Except Exception (Mat ℂ) × List Event :=
  -- check square matrix
  if h : (!internal._check_square_mat A) = true then
    (Except.error (Exception.runtime_error "funm: Matrix must be square!"), [])
  else
    let Ac := Mat.toSquare (Mat.cast A) (by simpa [internal._check_square_mat] using h)
    let s := es A.rows Ac
    let evects := s.eigenvectors
    let evals := funmLoop f s.eigenvalues
    let evalsdiag := Matrix.diagonal evals.1
    (Except.ok (Mat.ofMatrix (evects * evalsdiag * evects⁻¹)),
      Event.eigensolve A.rows Ac :: evals.2.map Event.apply)

/-- Computes `f(A)`: what `funm(A, f)` returns or throws. -/
noncomputable def funm {α : Type} [CplxCast α] (es : Solver) (A : Mat α) (f : ℂ → ℂ) :
    Except Exception (Mat ℂ) :=
  (funmRun es A f).1

/-! ## `fun` -/

/-- The assignment `result(i, j) = v`. -/
def Mat.setCoeff {β : Type} {m n : ℕ} (result : Matrix (Fin m) (Fin n) β)
    (i : Fin m) (j : Fin n) (v : β) : Matrix (Fin m) (Fin n) β :=
  Function.update result i (Function.update (result i) j v)

/-- Apply `f` component-wise (`fun` in the header; the name is a keyword
here). The matrix `result(A.rows(), A.cols())` is allocated without being
initialised: `result` stands for what the fresh storage happens to hold. The
scalar type of `A` is the argument type of `f`. -/
def fun_ {α β : Type} (A : Mat α) (f : α → β)
    (result : Matrix (Fin A.rows) (Fin A.cols) β) : Mat β :=
  ⟨A.rows, A.cols,
    (List.finRange A.rows).foldl
      (fun res i =>
        (List.finRange A.cols).foldl
          (fun res j => Mat.setCoeff res i j (f (A.coeff i j))) res)
      result⟩

/-! ## Named specialisations -/

/-- Modelled from the spec: `adjoint` (defined in another header of the
library, not part of the sources at hand), the conjugate transpose. -/
def adjoint {α : Type} [Star α] (A : Mat α) : Mat α :=
  ⟨A.cols, A.rows, A.coeffᴴ⟩

/-- The product `A * B` of run-time matrices whose inner dimensions agree. -/
def Mat.mul {α : Type} [Mul α] [AddCommMonoid α] (A B : Mat α) (h : A.cols = B.rows) :
    Mat α :=
  ⟨A.rows, B.cols, A.coeff * Matrix.of (fun k j => B.coeff (Fin.cast h k) j)⟩

/-- The principal complex square root `std::sqrt`. -/
noncomputable def csqrt (x : ℂ) : ℂ := x ^ (1 / 2 : ℂ)

/-- Matrix absolute value. -/
noncomputable def absm {α : Type} [CplxCast α] [Star α] [Mul α] [AddCommMonoid α]
    (es : Solver) (A : Mat α) : Except Exception (Mat ℂ) :=
  funm es (Mat.mul (adjoint A) A rfl) (fun x => csqrt x)

/-- Matrix exponential. -/
noncomputable def expm {α : Type} [CplxCast α] (es : Solver) (A : Mat α) :
    Except Exception (Mat ℂ) :=
  funm es A Complex.exp

/-- Matrix logarithm. -/
noncomputable def logm {α : Type} [CplxCast α] (es : Solver) (A : Mat α) :
    Except Exception (Mat ℂ) :=
  funm es A Complex.log

/-- Matrix square root. -/
noncomputable def sqrtm {α : Type} [CplxCast α] (es : Solver) (A : Mat α) :
    Except Exception (Mat ℂ) :=
  funm es A csqrt

/-- Matrix sin. -/
noncomputable def sinm {α : Type} [CplxCast α] (es : Solver) (A : Mat α) :
    Except Exception (Mat ℂ) :=
  funm es A Complex.sin

/-- Matrix cos. -/
noncomputable def cosm {α : Type} [CplxCast α] (es : Solver) (A : Mat α) :
    Except Exception (Mat ℂ) :=
  funm es A Complex.cos

/-- A solver that reads the eigenvalues off the diagonal and returns the
identity basis; its answer is a valid decomposition of diagonal matrices. -/
def diagSolver : Solver :=
  fun _ M => ⟨1, fun i => M i i⟩

/-- A solver that reads the eigenvalues off the diagonal and returns the
upper triangular matrix of ones as eigenvectors (not the identity, not a
permutation); its answer is a valid decomposition of scalar matrices. -/
def shearSolver : Solver :=
  fun _ M => ⟨Matrix.of (fun i j => if i ≤ j then 1 else 0), fun i => M i i⟩

/-- The `2 × 3` matrix with rows `(1, 0, 0)` and `(0, 1, 0)`. -/
def wide23 : Mat ℂ :=
  Mat.ofMatrix (!![1, 0, 0; 0, 1, 0] : Matrix (Fin 2) (Fin 3) ℂ)

/-- The branch cut of the principal logarithm and of the principal square
root: the negative real axis, the origin included. -/
def onBranchCut (z : ℂ) : Prop :=
  z.im = 0 ∧ z.re ≤ 0

/-- The `1 × 1` matrix with the single entry `2πi`. -/
noncomputable def twoPiI : Matrix (Fin 1) (Fin 1) ℂ :=
  Matrix.diagonal (fun _ => 2 * Real.pi * Complex.I)

/-- The solver `es` with its eigenvectors and eigenvalues listed in the
reverse order. -/
noncomputable def reversed (es : Solver) : Solver :=
  fun n M =>
    ⟨(es n M).eigenvectors * (Fin.revPerm : Equiv.Perm (Fin n)).permMatrix ℂ,
      ((Fin.revPerm : Equiv.Perm (Fin n)).permMatrix ℂ)ᵀ *ᵥ (es n M).eigenvalues⟩

/-! ## Basic facts -/

theorem Mat.ofMatrix_inj {α : Type} {m n : ℕ} {M N : Matrix (Fin m) (Fin n) α} :
    Mat.ofMatrix M = Mat.ofMatrix N ↔ M = N := by
  constructor
  · intro h
    simpa [Mat.ofMatrix] using h
  · rintro rfl
    rfl

theorem Mat.exists_ofMatrix_of_square {α : Type} (A : Mat α) (h : A.rows = A.cols) :
    ∃ M : Matrix (Fin A.rows) (Fin A.rows) α, A = Mat.ofMatrix M := by
  obtain ⟨r, c, M⟩ := A
  simp only at h
  subst h
  exact ⟨M, rfl⟩

/-- After the loop over the indices in `l` (no index twice), `f` has been
applied in place at those indices, and has been called on the original
entries, in order. -/
theorem funmLoop_aux {n : ℕ} (f : ℂ → ℂ) (evals : Fin n → ℂ) (l : List (Fin n))
    (hl : l.Nodup) :
    l.foldl (funmStep f) (evals, []) =
      (fun i => if i ∈ l then f (evals i) else evals i, l.map evals) := by
  induction l using List.reverseRecOn with
  | nil => simp
  | append_singleton l a ih =>
    have hn := List.nodup_append.1 hl
    have ha : a ∉ l := fun h => hn.2.2 h (List.mem_singleton_self a)
    rw [List.foldl_append, ih hn.1]
    simp only [List.foldl_cons, List.foldl_nil, funmStep, ha, if_false, List.map_append,
      List.map_cons, List.map_nil, Prod.mk.injEq, and_true]
    funext i
    by_cases hi : i = a
    · subst hi
      simp
    · simp [Function.update_noteq hi, hi]

theorem funmLoop_eq {n : ℕ} (f : ℂ → ℂ) (evals : Fin n → ℂ) :
    funmLoop f evals = (fun i => f (evals i), List.ofFn evals) := by
  rw [funmLoop, funmLoop_aux f evals _ (List.nodup_finRange n)]
  simp [List.ofFn_eq_map]

/-- What a run of `funm` does on a square matrix. -/
theorem funmRun_ofMatrix {α : Type} [CplxCast α] (es : Solver) {n : ℕ}
    (M : Matrix (Fin n) (Fin n) α) (f : ℂ → ℂ) :
    funmRun es (Mat.ofMatrix M) f =
      (Except.ok (Mat.ofMatrix
          ((es n (M.map CplxCast.cplx)).eigenvectors *
            Matrix.diagonal (fun i => f ((es n (M.map CplxCast.cplx)).eigenvalues i)) *
            (es n (M.map CplxCast.cplx)).eigenvectors⁻¹)),
        Event.eigensolve n (M.map CplxCast.cplx) ::
          (List.ofFn (es n (M.map CplxCast.cplx)).eigenvalues).map Event.apply) := by
  have hc : (!internal._check_square_mat (Mat.ofMatrix M)) = false := by
    simp [internal._check_square_mat, Mat.ofMatrix]
  have hM : Mat.toSquare (Mat.cast (Mat.ofMatrix M)) rfl = M.map CplxCast.cplx := by
    funext i j
    rfl
  unfold funmRun
  rw [dif_neg (by simp [hc])]
  simp only [funmLoop_eq]
  rw [show Mat.toSquare (Mat.cast (Mat.ofMatrix M)) _ = M.map CplxCast.cplx from hM]
  rfl

theorem funm_ofMatrix {α : Type} [CplxCast α] (es : Solver) {n : ℕ}
    (M : Matrix (Fin n) (Fin n) α) (f : ℂ → ℂ) :
    funm es (Mat.ofMatrix M) f =
      Except.ok (Mat.ofMatrix
          ((es n (M.map CplxCast.cplx)).eigenvectors *
            Matrix.diagonal (fun i => f ((es n (M.map CplxCast.cplx)).eigenvalues i)) *
            (es n (M.map CplxCast.cplx)).eigenvectors⁻¹)) := by
  rw [funm, funmRun_ofMatrix]

theorem funmRun_not_square {α : Type} [CplxCast α] (es : Solver) (A : Mat α) (f : ℂ → ℂ)
    (h : A.rows ≠ A.cols) :
    funmRun es A f =
      (Except.error (Exception.runtime_error "funm: Matrix must be square!"), []) := by
  unfold funmRun
  rw [dif_pos (by simpa [internal._check_square_mat] using h)]

theorem funmRun_square {α : Type} [CplxCast α] (es : Solver) (A : Mat α) (f : ℂ → ℂ)
    (h : A.rows = A.cols) :
    ∃ (R : Matrix (Fin A.rows) (Fin A.rows) ℂ) (e : Event) (evs : List Event),
      funmRun es A f = (Except.ok (Mat.ofMatrix R), e :: evs) := by
  obtain ⟨r, c, M⟩ := A
  simp only at h
  subst h
  exact ⟨_, _, _, funmRun_ofMatrix es M f⟩

/-! ## Uniqueness of the reconstruction -/

/-- If `S` intertwines two diagonal matrices, it intertwines their images
under any scalar function. -/
theorem diagonal_intertwine {n : ℕ} (S : Matrix (Fin n) (Fin n) ℂ) (a b : Fin n → ℂ)
    (f : ℂ → ℂ) (h : S * Matrix.diagonal a = Matrix.diagonal b * S) :
    S * Matrix.diagonal (fun i => f (a i)) = Matrix.diagonal (fun i => f (b i)) * S := by
  ext i j
  have hij := congrFun (congrFun h i) j
  rw [Matrix.mul_diagonal, Matrix.diagonal_mul] at hij
  rw [Matrix.mul_diagonal, Matrix.diagonal_mul]
  by_cases hS : S i j = 0
  · simp [hS]
  · have hab : a j = b i := by
      have h1 : S i j * (a j - b i) = 0 := by
        rw [mul_sub, hij]
        ring
      rcases mul_eq_zero.1 h1 with h0 | h0
      · exact absurd h0 hS
      · exact sub_eq_zero.1 h0
    rw [hab]
    ring

/-- Two valid decompositions of the same matrix reconstruct the same `f(A)`. -/
theorem reconstruct_unique {n : ℕ} (V W : Matrix (Fin n) (Fin n) ℂ) (a b : Fin n → ℂ)
    (f : ℂ → ℂ) (hV : IsUnit V.det) (hW : IsUnit W.det)
    (h : V * Matrix.diagonal a * V⁻¹ = W * Matrix.diagonal b * W⁻¹) :
    V * Matrix.diagonal (fun i => f (a i)) * V⁻¹ =
      W * Matrix.diagonal (fun i => f (b i)) * W⁻¹ := by
  have hS : (W⁻¹ * V) * Matrix.diagonal a = Matrix.diagonal b * (W⁻¹ * V) := by
    have h1 : W⁻¹ * (V * Matrix.diagonal a * V⁻¹) * V =
        W⁻¹ * (W * Matrix.diagonal b * W⁻¹) * V := by rw [h]
    have h2 : W⁻¹ * (V * Matrix.diagonal a * V⁻¹) * V = (W⁻¹ * V) * Matrix.diagonal a := by
      rw [Matrix.mul_assoc, Matrix.mul_assoc, Matrix.nonsing_inv_mul V hV, Matrix.mul_one,
        Matrix.mul_assoc]
    have h3 : W⁻¹ * (W * Matrix.diagonal b * W⁻¹) * V = Matrix.diagonal b * (W⁻¹ * V) := by
      rw [Matrix.mul_assoc W, ← Matrix.mul_assoc W⁻¹, Matrix.nonsing_inv_mul W hW,
        Matrix.one_mul, Matrix.mul_assoc]
    rw [← h2, ← h3, h1]
  have hf := diagonal_intertwine (W⁻¹ * V) a b f hS
  calc V * Matrix.diagonal (fun i => f (a i)) * V⁻¹
      = W * ((W⁻¹ * V) * Matrix.diagonal (fun i => f (a i))) * V⁻¹ := by
        rw [Matrix.mul_assoc W⁻¹, ← Matrix.mul_assoc W, Matrix.mul_nonsing_inv W hW,
          Matrix.one_mul]
    _ = W * (Matrix.diagonal (fun i => f (b i)) * (W⁻¹ * V)) * V⁻¹ := by rw [hf]
    _ = W * Matrix.diagonal (fun i => f (b i)) * W⁻¹ * (V * V⁻¹) := by
        simp only [Matrix.mul_assoc]
    _ = W * Matrix.diagonal (fun i => f (b i)) * W⁻¹ := by
        rw [Matrix.mul_nonsing_inv V hV, Matrix.mul_one]

/-- On a matrix with a valid decomposition, `funm` returns the
reconstruction from any other valid decomposition of it as well. -/
theorem funm_eq_of_valid {α : Type} [CplxCast α] (es : Solver) {n : ℕ}
    (M : Matrix (Fin n) (Fin n) α) (f : ℂ → ℂ)
    (hes : ValidEig (M.map CplxCast.cplx) (es n (M.map CplxCast.cplx)))
    (W : Matrix (Fin n) (Fin n) ℂ) (b : Fin n → ℂ) (hW : IsUnit W.det)
    (hM : M.map CplxCast.cplx = W * Matrix.diagonal b * W⁻¹) :
    funm es (Mat.ofMatrix M) f =
      Except.ok (Mat.ofMatrix (W * Matrix.diagonal (fun i => f (b i)) * W⁻¹)) := by
  rw [funm_ofMatrix]
  congr 2
  exact reconstruct_unique _ W _ b f hes.1 hW (hes.2.symm.trans hM)

theorem validEig_diagSolver {n : ℕ} (d : Fin n → ℂ) :
    ValidEig (Matrix.diagonal d) (diagSolver n (Matrix.diagonal d)) := by
  constructor
  · simp [diagSolver]
  · simp [diagSolver]

@[simp]
theorem cplx_complex (z : ℂ) : CplxCast.cplx z = z := rfl

@[simp]
theorem map_cplx_complex {m n : ℕ} (M : Matrix (Fin m) (Fin n) ℂ) :
    M.map CplxCast.cplx = M := rfl

theorem diagSolver_one_mul {n : ℕ} (M : Matrix (Fin n) (Fin n) ℂ) (g : ℂ → ℂ) :
    (diagSolver n M).eigenvectors *
        Matrix.diagonal (fun i => g ((diagSolver n M).eigenvalues i)) *
        (diagSolver n M).eigenvectors⁻¹ = Matrix.diagonal (fun i => g (M i i)) := by
  simp [diagSolver]

theorem absm_eq_funm {α : Type} [CplxCast α] [Star α] [Mul α] [AddCommMonoid α]
    (es : Solver) (A : Mat α) :
    absm es A = funm es (Mat.ofMatrix (A.coeffᴴ * A.coeff)) csqrt := rfl

theorem csqrt_zero : csqrt 0 = 0 := by
  simp [csqrt]

theorem csqrt_one : csqrt 1 = 1 := by
  simp [csqrt]

theorem csqrt_mul_self (x : ℂ) : csqrt x * csqrt x = x := by
  have h := Complex.cpow_nat_inv_pow x (two_ne_zero)
  rw [pow_two] at h
  simpa [csqrt] using h

/-- The inner loop of `fun`: row `i` is filled at the columns in `l`. -/
theorem fun_inner {α β : Type} {m n : ℕ} (A : Matrix (Fin m) (Fin n) α) (f : α → β)
    (i : Fin m) (l : List (Fin n)) (res : Matrix (Fin m) (Fin n) β) :
    l.foldl (fun res j => Mat.setCoeff res i j (f (A i j))) res =
      fun i1 j1 => if i1 = i ∧ j1 ∈ l then f (A i1 j1) else res i1 j1 := by
  induction l using List.reverseRecOn with
  | nil => simp
  | append_singleton l a ih =>
    rw [List.foldl_append, ih]
    funext i1 j1
    simp only [List.foldl_cons, List.foldl_nil, Mat.setCoeff, List.mem_append,
      List.mem_singleton]
    by_cases hi : i1 = i
    · subst hi
      by_cases hj : j1 = a
      · subst hj
        simp
      · simp [Function.update_noteq hj, hj]
    · simp [Function.update_noteq hi, hi]

/-- The outer loop of `fun`: the rows in `l` are filled. -/
theorem fun_outer {α β : Type} {m n : ℕ} (A : Matrix (Fin m) (Fin n) α) (f : α → β)
    (l : List (Fin m)) (res : Matrix (Fin m) (Fin n) β) :
    l.foldl (fun res i =>
        (List.finRange n).foldl (fun res j => Mat.setCoeff res i j (f (A i j))) res) res =
      fun i1 j1 => if i1 ∈ l then f (A i1 j1) else res i1 j1 := by
  induction l using List.reverseRecOn with
  | nil => simp
  | append_singleton l a ih =>
    rw [List.foldl_append, ih]
    simp only [List.foldl_cons, List.foldl_nil, fun_inner]
    funext i1 j1
    by_cases hi : i1 = a
    · subst hi
      simp [List.mem_finRange]
    · simp [hi]

/-- Squaring the reconstruction from the square roots of the eigenvalues
gives back the decomposed matrix. -/
theorem sq_reconstruction {n : ℕ} (M : Matrix (Fin n) (Fin n) ℂ) (s : ComplexEigenSolver n)
    (hV : IsUnit s.eigenvectors.det)
    (hM : M = s.eigenvectors * Matrix.diagonal s.eigenvalues * s.eigenvectors⁻¹) :
    (s.eigenvectors * Matrix.diagonal (fun i => csqrt (s.eigenvalues i)) * s.eigenvectors⁻¹) *
        (s.eigenvectors * Matrix.diagonal (fun i => csqrt (s.eigenvalues i)) *
          s.eigenvectors⁻¹) = M := by
  have hd : Matrix.diagonal (fun i => csqrt (s.eigenvalues i)) *
      Matrix.diagonal (fun i => csqrt (s.eigenvalues i)) = Matrix.diagonal s.eigenvalues := by
    rw [Matrix.diagonal_mul_diagonal]
    exact congrArg Matrix.diagonal (funext fun i => csqrt_mul_self _)
  calc (s.eigenvectors * Matrix.diagonal (fun i => csqrt (s.eigenvalues i)) *
          s.eigenvectors⁻¹) *
        (s.eigenvectors * Matrix.diagonal (fun i => csqrt (s.eigenvalues i)) *
          s.eigenvectors⁻¹)
      = s.eigenvectors * Matrix.diagonal (fun i => csqrt (s.eigenvalues i)) *
          (s.eigenvectors⁻¹ * s.eigenvectors) *
          Matrix.diagonal (fun i => csqrt (s.eigenvalues i)) * s.eigenvectors⁻¹ := by
        simp only [Matrix.mul_assoc]
    _ = s.eigenvectors * (Matrix.diagonal (fun i => csqrt (s.eigenvalues i)) *
          Matrix.diagonal (fun i => csqrt (s.eigenvalues i))) * s.eigenvectors⁻¹ := by
        rw [Matrix.nonsing_inv_mul _ hV, Matrix.mul_one, Matrix.mul_assoc s.eigenvectors]
    _ = M := by rw [hd, ← hM]

theorem csqrt_ofReal (r : ℝ) (hr : 0 ≤ r) : csqrt (r : ℂ) = ((Real.sqrt r : ℝ) : ℂ) := by
  rw [csqrt, Real.sqrt_eq_rpow, Complex.ofReal_cpow hr]
  norm_num

/-- Casting to complex commutes with forming the Gram matrix. -/
theorem map_cplx_gram {α : Type} [CommRing α] [StarRing α] [CplxCast α] [LawfulCplxCast α]
    {m n : ℕ} (A : Matrix (Fin m) (Fin n) α) :
    (Aᴴ * A).map CplxCast.cplx = (A.map CplxCast.cplx)ᴴ * A.map CplxCast.cplx := by
  ext i j
  simp only [Matrix.map_apply, Matrix.mul_apply, Matrix.conjTranspose_apply]
  have h := map_sum (AddMonoidHom.mk' (CplxCast.cplx : α → ℂ) LawfulCplxCast.map_add)
    (fun k => star (A k i) * A k j) Finset.univ
  simp only [AddMonoidHom.mk'_apply] at h
  rw [h]
  exact Finset.sum_congr rfl fun k _ => by
    rw [LawfulCplxCast.map_mul, LawfulCplxCast.map_star]

/-- An eigenvalue of a positive semidefinite matrix is real and not
negative. -/
theorem eigenvalue_nonneg_of_posSemidef {n : ℕ} (S : Matrix (Fin n) (Fin n) ℂ)
    (hS : S.PosSemidef) (μ : ℂ) (v : Fin n → ℂ) (hv : v ≠ 0) (h : S *ᵥ v = μ • v) :
    μ.im = 0 ∧ 0 ≤ μ.re := by
  have h1 := hS.2 v
  rw [h, Matrix.dotProduct_smul, smul_eq_mul] at h1
  have hpos : 0 < star v ⬝ᵥ v := Matrix.dotProduct_star_self_pos_iff.2 hv
  obtain ⟨hre, him⟩ := Complex.nonneg_iff.1 h1
  obtain ⟨hcre, hcim⟩ := Complex.pos_iff.1 hpos
  rw [Complex.mul_re, ← hcim, mul_zero, sub_zero] at hre
  rw [Complex.mul_im, ← hcim, mul_zero, zero_add] at him
  refine ⟨?_, nonneg_of_mul_nonneg_left hre hcre⟩
  rcases mul_eq_zero.1 him.symm with h0 | h0
  · exact h0
  · exact absurd h0 hcre.ne'

/-- On a positive semidefinite matrix with a valid decomposition, `funm`
with the square root returns the positive semidefinite square root. -/
theorem funm_csqrt_posSemidef {α : Type} [CplxCast α] (es : Solver) {n : ℕ}
    (M : Matrix (Fin n) (Fin n) α) (hM : (M.map CplxCast.cplx).PosSemidef)
    (hes : ValidEig (M.map CplxCast.cplx) (es n (M.map CplxCast.cplx))) :
    funm es (Mat.ofMatrix M) csqrt = Except.ok (Mat.ofMatrix hM.sqrt) := by
  have hU : star (hM.1.eigenvectorUnitary : Matrix (Fin n) (Fin n) ℂ) *
      (hM.1.eigenvectorUnitary : Matrix (Fin n) (Fin n) ℂ) = 1 :=
    unitary.coe_star_mul_self hM.1.eigenvectorUnitary
  have hUinv : (hM.1.eigenvectorUnitary : Matrix (Fin n) (Fin n) ℂ)⁻¹ =
      star (hM.1.eigenvectorUnitary : Matrix (Fin n) (Fin n) ℂ) :=
    Matrix.inv_eq_left_inv hU
  have hUdet : IsUnit (hM.1.eigenvectorUnitary : Matrix (Fin n) (Fin n) ℂ).det :=
    Matrix.isUnit_det_of_left_inverse hU
  have hspec : M.map CplxCast.cplx =
      (hM.1.eigenvectorUnitary : Matrix (Fin n) (Fin n) ℂ) *
        Matrix.diagonal (fun i => ((hM.1.eigenvalues i : ℝ) : ℂ)) *
        (hM.1.eigenvectorUnitary : Matrix (Fin n) (Fin n) ℂ)⁻¹ := by
    rw [hUinv]
    exact hM.1.spectral_theorem
  have hd : (fun i => csqrt ((hM.1.eigenvalues i : ℝ) : ℂ)) =
      (RCLike.ofReal ∘ Real.sqrt ∘ hM.1.eigenvalues : Fin n → ℂ) :=
    funext fun i => csqrt_ofReal _ (hM.eigenvalues_nonneg i)
  rw [funm_eq_of_valid es M csqrt hes _ _ hUdet hspec, hUinv, Matrix.PosSemidef.sqrt, hd]

theorem permMatrix_transpose_mulVec {n : ℕ} (σ : Equiv.Perm (Fin n)) (a : Fin n → ℂ)
    (j : Fin n) : ((σ.permMatrix ℂ)ᵀ *ᵥ a) j = a (σ.symm j) := by
  simp only [Matrix.mulVec, Matrix.dotProduct, Matrix.transpose_apply, Equiv.Perm.permMatrix,
    PEquiv.toMatrix_apply, Equiv.toPEquiv_apply, Option.mem_def, Option.some.injEq]
  rw [Finset.sum_eq_single (σ.symm j)]
  · simp
  · intro k _ hk
    have : σ k ≠ j := fun h => hk (by rw [← h]; simp)
    simp [this]
  · simp

theorem permMatrix_mul_diagonal {n : ℕ} (σ : Equiv.Perm (Fin n)) (g : Fin n → ℂ) :
    σ.permMatrix ℂ * Matrix.diagonal (fun j => g (σ.symm j)) =
      Matrix.diagonal g * σ.permMatrix ℂ := by
  ext k j
  rw [Matrix.mul_diagonal, Matrix.diagonal_mul]
  simp only [Equiv.Perm.permMatrix, PEquiv.toMatrix_apply, Equiv.toPEquiv_apply, Option.mem_def,
    Option.some.injEq]
  by_cases h : σ k = j
  · subst h
    simp [mul_comm]
  · simp [h]

theorem permMatrix_isUnit_det {n : ℕ} (σ : Equiv.Perm (Fin n)) :
    IsUnit (σ.permMatrix ℂ).det := by
  rw [Matrix.det_permutation]
  rcases Int.units_eq_one_or (Equiv.Perm.sign σ) with h | h <;> simp [h]

/-- Reconstructing from consistently permuted eigenvectors and eigenvalues
gives the same matrix. -/
theorem reconstruct_perm {n : ℕ} (V : Matrix (Fin n) (Fin n) ℂ) (a : Fin n → ℂ)
    (σ : Equiv.Perm (Fin n)) (f : ℂ → ℂ) :
    (V * σ.permMatrix ℂ) *
        Matrix.diagonal (fun i => f (((σ.permMatrix ℂ)ᵀ *ᵥ a) i)) *
        (V * σ.permMatrix ℂ)⁻¹ =
      V * Matrix.diagonal (fun i => f (a i)) * V⁻¹ := by
  have hd : (fun i => f (((σ.permMatrix ℂ)ᵀ *ᵥ a) i)) = fun j => f (a (σ.symm j)) :=
    funext fun i => by rw [permMatrix_transpose_mulVec]
  rw [hd, Matrix.mul_inv_rev, Matrix.mul_assoc V, permMatrix_mul_diagonal σ (fun i => f (a i))]
  calc V * (Matrix.diagonal (fun i => f (a i)) * σ.permMatrix ℂ) *
        ((σ.permMatrix ℂ)⁻¹ * V⁻¹)
      = V * Matrix.diagonal (fun i => f (a i)) *
          (σ.permMatrix ℂ * (σ.permMatrix ℂ)⁻¹) * V⁻¹ := by
        simp only [Matrix.mul_assoc]
    _ = V * Matrix.diagonal (fun i => f (a i)) * V⁻¹ := by
        rw [Matrix.mul_nonsing_inv _ (permMatrix_isUnit_det σ), Matrix.mul_one]

theorem wide23_gram :
    (wide23.coeffᴴ * wide23.coeff).map CplxCast.cplx =
      (Matrix.diagonal ![1, 1, 0] : Matrix (Fin 3) (Fin 3) ℂ) := by
  ext i j
  fin_cases i <;> fin_cases j <;>
    simp [wide23, Mat.ofMatrix, Matrix.mul_apply, Fin.sum_univ_two]

/-- The product of two reconstructions over the same invertible basis is
the reconstruction of the pointwise product. -/
theorem reconstruction_mul {n : ℕ} (V : Matrix (Fin n) (Fin n) ℂ) (a b : Fin n → ℂ)
    (hV : IsUnit V.det) :
    (V * Matrix.diagonal a * V⁻¹) * (V * Matrix.diagonal b * V⁻¹) =
      V * Matrix.diagonal (fun i => a i * b i) * V⁻¹ := by
  calc (V * Matrix.diagonal a * V⁻¹) * (V * Matrix.diagonal b * V⁻¹)
      = V * Matrix.diagonal a * (V⁻¹ * V) * Matrix.diagonal b * V⁻¹ := by
        simp only [Matrix.mul_assoc]
    _ = V * (Matrix.diagonal a * Matrix.diagonal b) * V⁻¹ := by
        rw [Matrix.nonsing_inv_mul V hV, Matrix.mul_one, Matrix.mul_assoc V]
    _ = V * Matrix.diagonal (fun i => a i * b i) * V⁻¹ := by
        rw [Matrix.diagonal_mul_diagonal]

/-- The sum of two reconstructions over the same basis is the reconstruction
of the pointwise sum. -/
theorem reconstruction_add {n : ℕ} (V : Matrix (Fin n) (Fin n) ℂ) (a b : Fin n → ℂ) :
    V * Matrix.diagonal a * V⁻¹ + V * Matrix.diagonal b * V⁻¹ =
      V * Matrix.diagonal (fun i => a i + b i) * V⁻¹ := by
  rw [← Matrix.add_mul, ← Matrix.mul_add, Matrix.diagonal_add]

/-- Reconstructing from eigenvalues that are all `1` gives the identity. -/
theorem reconstruction_one {n : ℕ} (V : Matrix (Fin n) (Fin n) ℂ) (hV : IsUnit V.det) :
    V * Matrix.diagonal (fun _ => (1 : ℂ)) * V⁻¹ = 1 := by
  rw [Matrix.diagonal_one, Matrix.mul_one, Matrix.mul_nonsing_inv V hV]

/-- Reconstructing from eigenvalues that are all `0` gives the zero matrix. -/
theorem reconstruction_zero {n : ℕ} (V : Matrix (Fin n) (Fin n) ℂ) :
    V * Matrix.diagonal (fun _ => (0 : ℂ)) * V⁻¹ = 0 := by
  rw [Matrix.diagonal_zero, Matrix.mul_zero, Matrix.zero_mul]

/-- On a matrix whose promotion to complex is the scalar matrix `c·I`,
`funm` returns `f(c)·I`, whichever valid decomposition the solver returns. -/
theorem funm_of_cast_scalar {α : Type} [CplxCast α] (es : Solver) {n : ℕ}
    (M : Matrix (Fin n) (Fin n) α) (f : ℂ → ℂ) (c : ℂ)
    (hM : M.map CplxCast.cplx = Matrix.diagonal (fun _ : Fin n => c))
    (hes : ValidEig (M.map CplxCast.cplx) (es n (M.map CplxCast.cplx))) :
    funm es (Mat.ofMatrix M) f =
      Except.ok (Mat.ofMatrix (Matrix.diagonal (fun _ : Fin n => f c))) := by
  have hW : M.map CplxCast.cplx =
      (1 : Matrix (Fin n) (Fin n) ℂ) * Matrix.diagonal (fun _ => c) *
        (1 : Matrix (Fin n) (Fin n) ℂ)⁻¹ := by
    rw [hM]
    simp
  rw [funm_eq_of_valid es M f hes 1 (fun _ => c) (by simp) hW]
  simp

theorem zero_fin_two {α : Type} [Zero α] :
    (!![0, 0; 0, 0] : Matrix (Fin 2) (Fin 2) α) = 0 := by
  ext i j
  fin_cases i <;> fin_cases j <;> rfl

theorem map_cplx_zero {α : Type} [CommRing α] [StarRing α] [CplxCast α] [LawfulCplxCast α]
    (n : ℕ) :
    (0 : Matrix (Fin n) (Fin n) α).map CplxCast.cplx = Matrix.diagonal (fun _ => (0 : ℂ)) := by
  ext i j
  simp [LawfulCplxCast.map_zero]

theorem map_cplx_one {α : Type} [CommRing α] [StarRing α] [CplxCast α] [LawfulCplxCast α]
    (h1 : CplxCast.cplx (1 : α) = 1) (n : ℕ) :
    (1 : Matrix (Fin n) (Fin n) α).map CplxCast.cplx = Matrix.diagonal (fun _ => (1 : ℂ)) := by
  ext i j
  by_cases hij : i = j
  · subst hij
    simp [h1]
  · simp [hij, LawfulCplxCast.map_zero]

/-- Two reconstructions over the same invertible basis commute. -/
theorem reconstruction_comm {n : ℕ} (V : Matrix (Fin n) (Fin n) ℂ) (a b : Fin n → ℂ)
    (hV : IsUnit V.det) :
    (V * Matrix.diagonal a * V⁻¹) * (V * Matrix.diagonal b * V⁻¹) =
      (V * Matrix.diagonal b * V⁻¹) * (V * Matrix.diagonal a * V⁻¹) := by
  rw [reconstruction_mul V a b hV, reconstruction_mul V b a hV]
  exact congrArg (fun d => V * Matrix.diagonal d * V⁻¹) (funext fun i => mul_comm _ _)

theorem decomposition_of_diagonal {n : ℕ} (d : Fin n → ℂ) :
    IsUnit (1 : Matrix (Fin n) (Fin n) ℂ).det ∧
      (Matrix.diagonal d).map CplxCast.cplx =
        (1 : Matrix (Fin n) (Fin n) ℂ) * Matrix.diagonal d * (1 : Matrix (Fin n) (Fin n) ℂ)⁻¹ := by
  constructor <;> simp

/-! ## The claims -/

/-- C1: `funm(A, f)` throws the not-square error exactly when `A` is not
square, and returns a matrix exactly when `A` is square; when `A` is not
square no external call is made: neither the eigenvalue solver nor `f` is
evaluated (the log of calls is empty, which it never is on a square `A`). -/
theorem funm_throws_iff_not_square {α : Type} [CplxCast α] (es : Solver) (A : Mat α)
    (f : ℂ → ℂ) :
    (funm es A f = Except.error (Exception.runtime_error "funm: Matrix must be square!") ↔
        A.rows ≠ A.cols) ∧
      ((∃ R : Mat ℂ, funm es A f = Except.ok R) ↔ A.rows = A.cols) ∧
      ((funmRun es A f).2 = [] ↔ A.rows ≠ A.cols) := by
  by_cases h : A.rows = A.cols
  · obtain ⟨R, e, evs, hR⟩ := funmRun_square es A f h
    simp [funm, hR, h]
  · simp [funm, funmRun_not_square es A f h, h]

/-- C2: on a square `n × n` matrix `M`, `funm` returns the `n × n` complex
matrix `V · diag(f(λ₁),…,f(λₙ)) · V⁻¹`, where `V` and `Λ` are what the solver
returns for `M` cast to complex; the solver is called once, on that cast, and
`f` is then called once on each eigenvalue, in order, and on nothing else. -/
theorem funm_eq_reconstruction {α : Type} [CplxCast α] (es : Solver) {n : ℕ}
    (M : Matrix (Fin n) (Fin n) α) (f : ℂ → ℂ) :
    funm es (Mat.ofMatrix M) f =
        Except.ok (Mat.ofMatrix
          ((es n (M.map CplxCast.cplx)).eigenvectors *
            Matrix.diagonal (fun i => f ((es n (M.map CplxCast.cplx)).eigenvalues i)) *
            (es n (M.map CplxCast.cplx)).eigenvectors⁻¹)) ∧
      (funmRun es (Mat.ofMatrix M) f).2 =
        Event.eigensolve n (M.map CplxCast.cplx) ::
          (List.ofFn (es n (M.map CplxCast.cplx)).eigenvalues).map Event.apply := by
  rw [funm, funmRun_ofMatrix]
  exact ⟨rfl, rfl⟩

/-- C3: for a square diagonal matrix `D = diag(d₁,…,dₙ)`, `funm(D, f)` is
`diag(f(d₁),…,f(dₙ))`, whichever valid eigendecomposition of `D` (invertible
`V`, `D = V · diag(Λ) · V⁻¹`) the solver returns. -/
theorem funm_diagonal {α : Type} [CommRing α] [StarRing α] [CplxCast α] [LawfulCplxCast α]
    (es : Solver) {n : ℕ} (d : Fin n → α) (f : ℂ → ℂ)
    (hes : ValidEig ((Matrix.diagonal d).map CplxCast.cplx)
      (es n ((Matrix.diagonal d).map CplxCast.cplx))) :
    funm es (Mat.ofMatrix (Matrix.diagonal d)) f =
      Except.ok (Mat.ofMatrix (Matrix.diagonal (fun i => f (CplxCast.cplx (d i))))) := by
  have hD : (Matrix.diagonal d).map CplxCast.cplx =
      (1 : Matrix (Fin n) (Fin n) ℂ) * Matrix.diagonal (fun i => CplxCast.cplx (d i)) *
        (1 : Matrix (Fin n) (Fin n) ℂ)⁻¹ := by
    rw [Matrix.diagonal_map LawfulCplxCast.map_zero]
    simp
  rw [funm_eq_of_valid es _ f hes 1 (fun i => CplxCast.cplx (d i)) (by simp) hD]
  simp

/-- C4: `fun(A, f)` is total and returns the matrix of the shape of `A`
whose coefficient at `(i, j)` is `f(A(i, j))`, whatever the shape of `A`
(also with no rows or no columns) and whatever the fresh storage held. -/
theorem fun_eq_map {α β : Type} (A : Mat α) (f : α → β)
    (result : Matrix (Fin A.rows) (Fin A.cols) β) :
    fun_ A f result = ⟨A.rows, A.cols, fun i j => f (A.coeff i j)⟩ := by
  unfold fun_
  rw [fun_outer]
  simp [List.mem_finRange]

theorem validEig_shearSolver_two (c : ℂ) :
    ValidEig (Matrix.diagonal (fun _ : Fin 2 => c))
      (shearSolver 2 (Matrix.diagonal (fun _ : Fin 2 => c))) := by
  have hdet : IsUnit (Matrix.of (fun i j : Fin 2 => if i ≤ j then (1 : ℂ) else 0)).det := by
    simp [Matrix.det_fin_two]
  refine ⟨hdet, ?_⟩
  have hc : Matrix.diagonal (fun _ : Fin 2 => c) = c • (1 : Matrix (Fin 2) (Fin 2) ℂ) := by
    ext i j
    by_cases hij : i = j <;> simp [hij, Matrix.diagonal, Matrix.one_apply]
  simp only [shearSolver, Matrix.diagonal_apply_eq]
  rw [hc, Matrix.mul_smul, Matrix.mul_one, Matrix.smul_mul, Matrix.mul_nonsing_inv _ hdet]

/-- Witness of C3: a diagonal matrix with a repeated entry, decomposed with
an eigenvector matrix that is neither the identity nor a permutation. -/
theorem funm_diagonal_witness :
    funm shearSolver (Mat.ofMatrix (Matrix.diagonal (fun _ : Fin 2 => (3 : ℂ)))) Complex.exp =
      Except.ok (Mat.ofMatrix (Matrix.diagonal (fun _ : Fin 2 => Complex.exp 3))) :=
  funm_diagonal shearSolver (fun _ : Fin 2 => (3 : ℂ)) Complex.exp
    (validEig_shearSolver_two 3)

/-- C5, as stated, fails for `absm`: on the non-square `2 × 3` matrix with
rows `(1, 0, 0)` and `(0, 1, 0)` it throws nothing and returns the `3 × 3`
matrix `diag(1, 1, 0)`. -/
theorem absm_not_square_returns :
    wide23.rows ≠ wide23.cols ∧
      absm diagSolver wide23 =
        Except.ok (Mat.ofMatrix (Matrix.diagonal ![1, 1, 0] : Matrix (Fin 3) (Fin 3) ℂ)) := by
  refine ⟨by decide, ?_⟩
  rw [absm_eq_funm, funm_ofMatrix]
  congr 2
  simp only [diagSolver, Matrix.one_mul, inv_one, Matrix.mul_one]
  refine congrArg Matrix.diagonal (funext fun i => ?_)
  fin_cases i <;>
    simp [wide23, Mat.ofMatrix, Matrix.mul_apply, Fin.sum_univ_two, CplxCast.cplx,
      csqrt_zero, csqrt_one]

/-- C5, amended: on a matrix that is not square, `expm`, `logm`, `sqrtm`,
`sinm` and `cosm` throw the not-square error and return nothing; `absm` does
not throw: it applies `funm` to `Aᴴ·A`, which is square with as many rows as
`A` has columns, and returns a matrix of that shape. -/
theorem specialisations_not_square {α : Type} [CplxCast α] [Star α] [Mul α]
    [AddCommMonoid α] (es : Solver) (A : Mat α) (h : A.rows ≠ A.cols) :
    expm es A = Except.error (Exception.runtime_error "funm: Matrix must be square!") ∧
      logm es A = Except.error (Exception.runtime_error "funm: Matrix must be square!") ∧
      sqrtm es A = Except.error (Exception.runtime_error "funm: Matrix must be square!") ∧
      sinm es A = Except.error (Exception.runtime_error "funm: Matrix must be square!") ∧
      cosm es A = Except.error (Exception.runtime_error "funm: Matrix must be square!") ∧
      ∃ R : Matrix (Fin A.cols) (Fin A.cols) ℂ, absm es A = Except.ok (Mat.ofMatrix R) := by
  refine ⟨?_, ?_, ?_, ?_, ?_, ?_⟩
  · rw [expm, funm, funmRun_not_square es A _ h]
  · rw [logm, funm, funmRun_not_square es A _ h]
  · rw [sqrtm, funm, funmRun_not_square es A _ h]
  · rw [sinm, funm, funmRun_not_square es A _ h]
  · rw [cosm, funm, funmRun_not_square es A _ h]
  · exact ⟨_, (absm_eq_funm es A).trans (funm_ofMatrix es _ _)⟩

/-- Witness of C5 amended, at the `2 × 3` matrix with rows `(1, 0, 0)` and
`(0, 1, 0)`. -/
theorem specialisations_not_square_witness :
    expm diagSolver wide23 =
        Except.error (Exception.runtime_error "funm: Matrix must be square!") ∧
      logm diagSolver wide23 =
        Except.error (Exception.runtime_error "funm: Matrix must be square!") ∧
      sqrtm diagSolver wide23 =
        Except.error (Exception.runtime_error "funm: Matrix must be square!") ∧
      sinm diagSolver wide23 =
        Except.error (Exception.runtime_error "funm: Matrix must be square!") ∧
      cosm diagSolver wide23 =
        Except.error (Exception.runtime_error "funm: Matrix must be square!") ∧
      ∃ R : Matrix (Fin wide23.cols) (Fin wide23.cols) ℂ,
        absm diagSolver wide23 = Except.ok (Mat.ofMatrix R) :=
  specialisations_not_square diagSolver wide23 (by decide)

/-- C6, as stated, fails: the `1 × 1` matrix `(2πi)` is diagonal, its
eigenvalue `2πi` is off the branch cut of the logarithm, the solver returns
a valid decomposition at both calls, `expm` gives `(1)` (whose eigenvalue is
off the branch cut too), and `logm` of that is `(0)`, not `(2πi)`. -/
theorem logm_expm_two_pi_I :
    ValidEig twoPiI (diagSolver 1 twoPiI) ∧
      (∀ i, ¬ onBranchCut ((diagSolver 1 twoPiI).eigenvalues i)) ∧
      expm diagSolver (Mat.ofMatrix twoPiI) =
        Except.ok (Mat.ofMatrix (Matrix.diagonal (fun _ : Fin 1 => (1 : ℂ)))) ∧
      ValidEig (Matrix.diagonal (fun _ : Fin 1 => (1 : ℂ)))
        (diagSolver 1 (Matrix.diagonal (fun _ : Fin 1 => (1 : ℂ)))) ∧
      (∀ i, ¬ onBranchCut
        ((diagSolver 1 (Matrix.diagonal (fun _ : Fin 1 => (1 : ℂ)))).eigenvalues i)) ∧
      (expm diagSolver (Mat.ofMatrix twoPiI) >>= logm diagSolver) =
        Except.ok (Mat.ofMatrix (0 : Matrix (Fin 1) (Fin 1) ℂ)) ∧
      (expm diagSolver (Mat.ofMatrix twoPiI) >>= logm diagSolver) ≠
        Except.ok (Mat.ofMatrix twoPiI) := by
  have hexp : expm diagSolver (Mat.ofMatrix twoPiI) =
      Except.ok (Mat.ofMatrix (Matrix.diagonal (fun _ : Fin 1 => (1 : ℂ)))) := by
    rw [expm, funm_ofMatrix, map_cplx_complex, diagSolver_one_mul]
    simp [twoPiI, Complex.exp_two_pi_mul_I]
  have hlog : (expm diagSolver (Mat.ofMatrix twoPiI) >>= logm diagSolver) =
      Except.ok (Mat.ofMatrix (0 : Matrix (Fin 1) (Fin 1) ℂ)) := by
    rw [hexp]
    show logm diagSolver (Mat.ofMatrix (Matrix.diagonal (fun _ : Fin 1 => (1 : ℂ)))) = _
    rw [logm, funm_ofMatrix, map_cplx_complex, diagSolver_one_mul]
    simp
  refine ⟨validEig_diagSolver _, ?_, hexp, validEig_diagSolver _, ?_, hlog, ?_⟩
  · intro i h
    have him := h.1
    simp [diagSolver, twoPiI, Real.pi_ne_zero] at him
  · intro i h
    have hre := h.2
    simp [diagSolver] at hre
    linarith
  · rw [hlog]
    intro h
    have h2 := Mat.ofMatrix_inj.1 (Except.ok.inj h)
    have h3 := congrFun (congrFun h2 0) 0
    simp [twoPiI, Real.pi_ne_zero] at h3

/-- C6, amended: if every eigenvalue of `A` has its imaginary part in
`(-π, π]`, and the solver returns a valid eigendecomposition of `A` and of
`expm(A)`, then `logm(expm(A)) = A` (cast to complex). -/
theorem logm_expm_of_im_mem {α : Type} [CplxCast α] (es : Solver) {n : ℕ}
    (M : Matrix (Fin n) (Fin n) α)
    (hA : ValidEig (M.map CplxCast.cplx) (es n (M.map CplxCast.cplx)))
    (him : ∀ i, -Real.pi < ((es n (M.map CplxCast.cplx)).eigenvalues i).im ∧
      ((es n (M.map CplxCast.cplx)).eigenvalues i).im ≤ Real.pi)
    (hB : ∀ B : Matrix (Fin n) (Fin n) ℂ,
      expm es (Mat.ofMatrix M) = Except.ok (Mat.ofMatrix B) → ValidEig B (es n B)) :
    (expm es (Mat.ofMatrix M) >>= logm es) = Except.ok (Mat.ofMatrix (M.map CplxCast.cplx)) := by
  have hexp := funm_ofMatrix es M Complex.exp
  have hval := hB _ hexp
  have hlog := funm_eq_of_valid es
    ((es n (M.map CplxCast.cplx)).eigenvectors *
      Matrix.diagonal (fun i => Complex.exp ((es n (M.map CplxCast.cplx)).eigenvalues i)) *
      (es n (M.map CplxCast.cplx)).eigenvectors⁻¹)
    Complex.log hval (es n (M.map CplxCast.cplx)).eigenvectors
    (fun i => Complex.exp ((es n (M.map CplxCast.cplx)).eigenvalues i)) hA.1 rfl
  rw [expm, hexp]
  show logm es (Mat.ofMatrix _) = _
  rw [logm, hlog]
  congr 2
  have hle : (fun i => Complex.log (Complex.exp ((es n (M.map CplxCast.cplx)).eigenvalues i))) =
      (es n (M.map CplxCast.cplx)).eigenvalues :=
    funext fun i => Complex.log_exp (him i).1 (him i).2
  rw [hle]
  exact hA.2.symm

/-- Witness of C6 amended, at `diag(0, 1)`. -/
theorem logm_expm_of_im_mem_witness :
    (expm diagSolver (Mat.ofMatrix (Matrix.diagonal ![(0 : ℂ), 1])) >>= logm diagSolver) =
      Except.ok (Mat.ofMatrix ((Matrix.diagonal ![(0 : ℂ), 1]).map CplxCast.cplx)) :=
  logm_expm_of_im_mem diagSolver (Matrix.diagonal ![(0 : ℂ), 1])
    (validEig_diagSolver _)
    (by
      intro i
      fin_cases i <;> simp [diagSolver, Real.pi_pos, Real.pi_pos.le])
    (by
      intro B hB
      rw [expm, funm_ofMatrix, map_cplx_complex, diagSolver_one_mul] at hB
      rw [← Mat.ofMatrix_inj.1 (Except.ok.inj hB)]
      exact validEig_diagSolver _)

/-- C7: if the solver returns a valid eigendecomposition of the square
matrix `A`, then `sqrtm(A)` returns a matrix `S` with `S · S = A` (cast to
complex). This holds for every such `A`, in particular when no eigenvalue
is on the negative real axis. -/
theorem sqrtm_mul_self {α : Type} [CplxCast α] (es : Solver) {n : ℕ}
    (M : Matrix (Fin n) (Fin n) α)
    (hA : ValidEig (M.map CplxCast.cplx) (es n (M.map CplxCast.cplx))) :
    ∃ S : Matrix (Fin n) (Fin n) ℂ,
      sqrtm es (Mat.ofMatrix M) = Except.ok (Mat.ofMatrix S) ∧ S * S = M.map CplxCast.cplx := by
  refine ⟨_, funm_ofMatrix es M csqrt, ?_⟩
  exact sq_reconstruction _ _ hA.1 hA.2

/-- Witness of C7, at `diag(4, 9)`. -/
theorem sqrtm_mul_self_witness :
    ∃ S : Matrix (Fin 2) (Fin 2) ℂ,
      sqrtm diagSolver (Mat.ofMatrix (Matrix.diagonal ![(4 : ℂ), 9])) =
          Except.ok (Mat.ofMatrix S) ∧
        S * S = (Matrix.diagonal ![(4 : ℂ), 9]).map CplxCast.cplx :=
  sqrtm_mul_self diagSolver (Matrix.diagonal ![(4 : ℂ), 9]) (validEig_diagSolver _)

/-- C8: for a matrix `A` of any shape, square ones included, if the solver
returns a valid eigendecomposition of `Aᴴ·A` (invertible `V`, unitary or
not), then `absm(A)` returns a matrix `S` that equals its own conjugate
transpose, is positive semidefinite, and has only real eigenvalues `≥ 0`. -/
theorem absm_hermitian_posSemidef {α : Type} [CommRing α] [StarRing α] [CplxCast α]
    [LawfulCplxCast α] (es : Solver) (A : Mat α)
    (hes : ValidEig ((A.coeffᴴ * A.coeff).map CplxCast.cplx)
      (es A.cols ((A.coeffᴴ * A.coeff).map CplxCast.cplx))) :
    ∃ S : Matrix (Fin A.cols) (Fin A.cols) ℂ,
      absm es A = Except.ok (Mat.ofMatrix S) ∧ Sᴴ = S ∧ S.PosSemidef ∧
        ∀ (μ : ℂ) (v : Fin A.cols → ℂ), v ≠ 0 → S *ᵥ v = μ • v → μ.im = 0 ∧ 0 ≤ μ.re := by
  have hG : ((A.coeffᴴ * A.coeff).map CplxCast.cplx).PosSemidef := by
    rw [map_cplx_gram]
    exact Matrix.posSemidef_conjTranspose_mul_self _
  refine ⟨hG.sqrt, ?_, hG.posSemidef_sqrt.1, hG.posSemidef_sqrt, ?_⟩
  · rw [absm_eq_funm]
    exact funm_csqrt_posSemidef es _ hG hes
  · intro μ v hv h
    exact eigenvalue_nonneg_of_posSemidef _ hG.posSemidef_sqrt μ v hv h

/-- Witness of C8, at the `2 × 3` matrix with rows `(1, 0, 0)` and
`(0, 1, 0)`. -/
theorem absm_hermitian_posSemidef_witness :
    ∃ S : Matrix (Fin wide23.cols) (Fin wide23.cols) ℂ,
      absm diagSolver wide23 = Except.ok (Mat.ofMatrix S) ∧ Sᴴ = S ∧ S.PosSemidef ∧
        ∀ (μ : ℂ) (v : Fin wide23.cols → ℂ), v ≠ 0 → S *ᵥ v = μ • v →
          μ.im = 0 ∧ 0 ≤ μ.re :=
  absm_hermitian_posSemidef diagSolver wide23 (by
    rw [wide23_gram]
    exact validEig_diagSolver _)

/-- C9: `absm(A)` is `funm(Aᴴ·A, sqrt)`, and if the solver returns a valid
eigendecomposition of `Aᴴ·A`, it returns a matrix `S` with
`S · S = Aᴴ·A` (cast to complex). -/
theorem absm_mul_self {α : Type} [CplxCast α] [Star α] [Mul α] [AddCommMonoid α]
    (es : Solver) (A : Mat α)
    (hes : ValidEig ((A.coeffᴴ * A.coeff).map CplxCast.cplx)
      (es A.cols ((A.coeffᴴ * A.coeff).map CplxCast.cplx))) :
    absm es A = funm es (Mat.mul (adjoint A) A rfl) csqrt ∧
      ∃ S : Matrix (Fin A.cols) (Fin A.cols) ℂ,
        absm es A = Except.ok (Mat.ofMatrix S) ∧
          S * S = (A.coeffᴴ * A.coeff).map CplxCast.cplx :=
  ⟨rfl, _, (absm_eq_funm es A).trans (funm_ofMatrix es _ csqrt),
    sq_reconstruction _ _ hes.1 hes.2⟩

/-- Witness of C9, at the `2 × 3` matrix with rows `(1, 0, 0)` and
`(0, 1, 0)`. -/
theorem absm_mul_self_witness :
    absm diagSolver wide23 = funm diagSolver (Mat.mul (adjoint wide23) wide23 rfl) csqrt ∧
      ∃ S : Matrix (Fin wide23.cols) (Fin wide23.cols) ℂ,
        absm diagSolver wide23 = Except.ok (Mat.ofMatrix S) ∧
          S * S = (wide23.coeffᴴ * wide23.coeff).map CplxCast.cplx :=
  absm_mul_self diagSolver wide23 (by
    rw [wide23_gram]
    exact validEig_diagSolver _)

/-- C10: if a solver `es2` returns, for the square matrix `A`, the
eigenvectors and eigenvalues that `es` returns, consistently permuted
(`V·P` and `Pᵀ·Λ`, `P` the matrix of a permutation `σ`), then `funm` gives
the same result with either: `(V·P)·diag(f(Pᵀ·Λ))·(V·P)⁻¹ =
V·diag(f(Λ))·V⁻¹`. -/
theorem funm_perm_invariant {α : Type} [CplxCast α] (es es2 : Solver) {n : ℕ}
    (M : Matrix (Fin n) (Fin n) α) (σ : Equiv.Perm (Fin n)) (f : ℂ → ℂ)
    (hV : (es2 n (M.map CplxCast.cplx)).eigenvectors =
      (es n (M.map CplxCast.cplx)).eigenvectors * σ.permMatrix ℂ)
    (hL : (es2 n (M.map CplxCast.cplx)).eigenvalues =
      (σ.permMatrix ℂ)ᵀ *ᵥ (es n (M.map CplxCast.cplx)).eigenvalues) :
    funm es2 (Mat.ofMatrix M) f = funm es (Mat.ofMatrix M) f ∧
      funm es2 (Mat.ofMatrix M) f =
        Except.ok (Mat.ofMatrix
          ((es n (M.map CplxCast.cplx)).eigenvectors * σ.permMatrix ℂ *
            Matrix.diagonal (fun i =>
              f (((σ.permMatrix ℂ)ᵀ *ᵥ (es n (M.map CplxCast.cplx)).eigenvalues) i)) *
            ((es n (M.map CplxCast.cplx)).eigenvectors * σ.permMatrix ℂ)⁻¹)) := by
  have h2 := funm_ofMatrix es2 M f
  rw [hV, hL] at h2
  refine ⟨?_, h2⟩
  rw [h2, funm_ofMatrix es M f, reconstruct_perm]

/-- Witness of C10, at `diag(1, 2)` with the two eigenpairs swapped. -/
theorem funm_perm_invariant_witness :
    funm (reversed diagSolver) (Mat.ofMatrix (Matrix.diagonal ![(1 : ℂ), 2])) Complex.exp =
        funm diagSolver (Mat.ofMatrix (Matrix.diagonal ![(1 : ℂ), 2])) Complex.exp ∧
      funm (reversed diagSolver) (Mat.ofMatrix (Matrix.diagonal ![(1 : ℂ), 2])) Complex.exp =
        Except.ok (Mat.ofMatrix
          ((diagSolver 2 ((Matrix.diagonal ![(1 : ℂ), 2]).map CplxCast.cplx)).eigenvectors *
              (Fin.revPerm : Equiv.Perm (Fin 2)).permMatrix ℂ *
            Matrix.diagonal (fun i =>
              Complex.exp ((((Fin.revPerm : Equiv.Perm (Fin 2)).permMatrix ℂ)ᵀ *ᵥ
                (diagSolver 2
                  ((Matrix.diagonal ![(1 : ℂ), 2]).map CplxCast.cplx)).eigenvalues) i)) *
            ((diagSolver 2 ((Matrix.diagonal ![(1 : ℂ), 2]).map CplxCast.cplx)).eigenvectors *
              (Fin.revPerm : Equiv.Perm (Fin 2)).permMatrix ℂ)⁻¹)) :=
  funm_perm_invariant diagSolver (reversed diagSolver) (Matrix.diagonal ![(1 : ℂ), 2])
    Fin.revPerm Complex.exp rfl rfl

/-- C11: the result of `funm` does not depend on the decomposition the
solver picks: two solvers that each return a valid eigendecomposition of the
square matrix `A` (invertible eigenvectors `V`, `W` with
`A = V·diag(Λ)·V⁻¹ = W·diag(M)·W⁻¹`, whatever the ordering, the scaling or
the basis inside an eigenspace) give the same `funm(A, f)`, namely
`V·diag(f(Λ))·V⁻¹ = W·diag(f(M))·W⁻¹`. -/
theorem funm_solver_independent {α : Type} [CplxCast α] (es1 es2 : Solver) {n : ℕ}
    (M : Matrix (Fin n) (Fin n) α) (f : ℂ → ℂ)
    (h1 : ValidEig (M.map CplxCast.cplx) (es1 n (M.map CplxCast.cplx)))
    (h2 : ValidEig (M.map CplxCast.cplx) (es2 n (M.map CplxCast.cplx))) :
    funm es1 (Mat.ofMatrix M) f = funm es2 (Mat.ofMatrix M) f ∧
      (es1 n (M.map CplxCast.cplx)).eigenvectors *
          Matrix.diagonal (fun i => f ((es1 n (M.map CplxCast.cplx)).eigenvalues i)) *
          (es1 n (M.map CplxCast.cplx)).eigenvectors⁻¹ =
        (es2 n (M.map CplxCast.cplx)).eigenvectors *
          Matrix.diagonal (fun i => f ((es2 n (M.map CplxCast.cplx)).eigenvalues i)) *
          (es2 n (M.map CplxCast.cplx)).eigenvectors⁻¹ := by
  have h := reconstruct_unique _ _ _ _ f h1.1 h2.1 (h1.2.symm.trans h2.2)
  refine ⟨?_, h⟩
  rw [funm_ofMatrix es1, funm_ofMatrix es2, h]

/-- Witness of C11, at `diag(3, 3)`: the identity basis against a shear,
two bases of the eigenspace of the repeated eigenvalue. -/
theorem funm_solver_independent_witness :
    funm diagSolver (Mat.ofMatrix (Matrix.diagonal (fun _ : Fin 2 => (3 : ℂ)))) Complex.exp =
        funm shearSolver (Mat.ofMatrix (Matrix.diagonal (fun _ : Fin 2 => (3 : ℂ))))
          Complex.exp ∧
      (diagSolver 2 ((Matrix.diagonal (fun _ : Fin 2 => (3 : ℂ))).map
            CplxCast.cplx)).eigenvectors *
          Matrix.diagonal (fun i => Complex.exp ((diagSolver 2
            ((Matrix.diagonal (fun _ : Fin 2 => (3 : ℂ))).map CplxCast.cplx)).eigenvalues i)) *
          (diagSolver 2 ((Matrix.diagonal (fun _ : Fin 2 => (3 : ℂ))).map
            CplxCast.cplx)).eigenvectors⁻¹ =
        (shearSolver 2 ((Matrix.diagonal (fun _ : Fin 2 => (3 : ℂ))).map
            CplxCast.cplx)).eigenvectors *
          Matrix.diagonal (fun i => Complex.exp ((shearSolver 2
            ((Matrix.diagonal (fun _ : Fin 2 => (3 : ℂ))).map CplxCast.cplx)).eigenvalues i)) *
          (shearSolver 2 ((Matrix.diagonal (fun _ : Fin 2 => (3 : ℂ))).map
            CplxCast.cplx)).eigenvectors⁻¹ :=
  funm_solver_independent diagSolver shearSolver (Matrix.diagonal (fun _ : Fin 2 => (3 : ℂ)))
    Complex.exp (validEig_diagSolver _) (validEig_shearSolver_two 3)

/-- C12: `fun(A, f)` with `f` the identity on the scalar type of `A` returns
a matrix equal to `A`: same shape, same coefficient at every position. -/
theorem fun_id {α : Type} (A : Mat α) (result : Matrix (Fin A.rows) (Fin A.cols) α) :
    fun_ A (fun x => x) result = A := by
  have h := fun_outer A.coeff (fun x : α => x) (List.finRange A.rows) result
  unfold fun_
  beta_reduce
  rw [h]
  simp [List.mem_finRange]

/-- C13: `expm` of the `2 × 2` zero matrix is the identity matrix
`[[1,0],[0,1]]`, and for every `n`, `expm` of the `n × n` zero matrix is the
`n × n` identity, for every valid eigendecomposition of the zero matrix the
solver may return. -/
theorem expm_zero {α : Type} [CommRing α] [StarRing α] [CplxCast α] [LawfulCplxCast α]
    (es : Solver) :
    (ValidEig ((!![0, 0; 0, 0] : Matrix (Fin 2) (Fin 2) α).map CplxCast.cplx)
        (es 2 ((!![0, 0; 0, 0] : Matrix (Fin 2) (Fin 2) α).map CplxCast.cplx)) →
      expm es (Mat.ofMatrix (!![0, 0; 0, 0] : Matrix (Fin 2) (Fin 2) α)) =
        Except.ok (Mat.ofMatrix (!![1, 0; 0, 1] : Matrix (Fin 2) (Fin 2) ℂ))) ∧
      ∀ n : ℕ,
        ValidEig ((0 : Matrix (Fin n) (Fin n) α).map CplxCast.cplx)
            (es n ((0 : Matrix (Fin n) (Fin n) α).map CplxCast.cplx)) →
          expm es (Mat.ofMatrix (0 : Matrix (Fin n) (Fin n) α)) =
            Except.ok (Mat.ofMatrix (1 : Matrix (Fin n) (Fin n) ℂ)) := by
  have hn : ∀ n : ℕ,
      ValidEig ((0 : Matrix (Fin n) (Fin n) α).map CplxCast.cplx)
          (es n ((0 : Matrix (Fin n) (Fin n) α).map CplxCast.cplx)) →
        expm es (Mat.ofMatrix (0 : Matrix (Fin n) (Fin n) α)) =
          Except.ok (Mat.ofMatrix (1 : Matrix (Fin n) (Fin n) ℂ)) := by
    intro n hes
    rw [expm, funm_of_cast_scalar es 0 Complex.exp 0 (map_cplx_zero n) hes, Complex.exp_zero,
      Matrix.diagonal_one]
  refine ⟨?_, hn⟩
  rw [zero_fin_two, ← Matrix.one_fin_two]
  exact hn 2

/-- Witness of C13: the `2 × 2` and the `3 × 3` complex zero matrices. -/
theorem expm_zero_witness :
    expm diagSolver (Mat.ofMatrix (!![0, 0; 0, 0] : Matrix (Fin 2) (Fin 2) ℂ)) =
        Except.ok (Mat.ofMatrix (!![1, 0; 0, 1] : Matrix (Fin 2) (Fin 2) ℂ)) ∧
      expm diagSolver (Mat.ofMatrix (0 : Matrix (Fin 3) (Fin 3) ℂ)) =
        Except.ok (Mat.ofMatrix (1 : Matrix (Fin 3) (Fin 3) ℂ)) :=
  ⟨(expm_zero diagSolver).1 (by
      rw [zero_fin_two, map_cplx_complex, ← Matrix.diagonal_zero]
      exact validEig_diagSolver _),
    (expm_zero diagSolver).2 3 (by
      rw [map_cplx_complex, ← Matrix.diagonal_zero]
      exact validEig_diagSolver _)⟩

/-- C14: for `A` the `2 × 2` identity matrix, `sqrtm(A)` is the identity
matrix and `logm(A)` is the zero matrix, for every valid eigendecomposition
of the identity the solver may return at either call. -/
theorem sqrtm_logm_one {α : Type} [CommRing α] [StarRing α] [CplxCast α] [LawfulCplxCast α]
    (es1 es2 : Solver) (h1 : CplxCast.cplx (1 : α) = 1)
    (hs : ValidEig ((!![1, 0; 0, 1] : Matrix (Fin 2) (Fin 2) α).map CplxCast.cplx)
      (es1 2 ((!![1, 0; 0, 1] : Matrix (Fin 2) (Fin 2) α).map CplxCast.cplx)))
    (hl : ValidEig ((!![1, 0; 0, 1] : Matrix (Fin 2) (Fin 2) α).map CplxCast.cplx)
      (es2 2 ((!![1, 0; 0, 1] : Matrix (Fin 2) (Fin 2) α).map CplxCast.cplx))) :
    sqrtm es1 (Mat.ofMatrix (!![1, 0; 0, 1] : Matrix (Fin 2) (Fin 2) α)) =
        Except.ok (Mat.ofMatrix (!![1, 0; 0, 1] : Matrix (Fin 2) (Fin 2) ℂ)) ∧
      logm es2 (Mat.ofMatrix (!![1, 0; 0, 1] : Matrix (Fin 2) (Fin 2) α)) =
        Except.ok (Mat.ofMatrix (!![0, 0; 0, 0] : Matrix (Fin 2) (Fin 2) ℂ)) := by
  rw [← Matrix.one_fin_two] at hs hl ⊢
  rw [← Matrix.one_fin_two, zero_fin_two]
  constructor
  · rw [sqrtm, funm_of_cast_scalar es1 1 csqrt 1 (map_cplx_one h1 2) hs, csqrt_one,
      Matrix.diagonal_one]
  · rw [logm, funm_of_cast_scalar es2 1 Complex.log 1 (map_cplx_one h1 2) hl, Complex.log_one,
      Matrix.diagonal_zero]

/-- Witness of C14: the complex `2 × 2` identity, decomposed with the
identity basis for `sqrtm` and with a shear for `logm`. -/
theorem sqrtm_logm_one_witness :
    sqrtm diagSolver (Mat.ofMatrix (!![1, 0; 0, 1] : Matrix (Fin 2) (Fin 2) ℂ)) =
        Except.ok (Mat.ofMatrix (!![1, 0; 0, 1] : Matrix (Fin 2) (Fin 2) ℂ)) ∧
      logm shearSolver (Mat.ofMatrix (!![1, 0; 0, 1] : Matrix (Fin 2) (Fin 2) ℂ)) =
        Except.ok (Mat.ofMatrix (!![0, 0; 0, 0] : Matrix (Fin 2) (Fin 2) ℂ)) :=
  sqrtm_logm_one diagSolver shearSolver rfl
    (by
      rw [← Matrix.one_fin_two, map_cplx_complex, ← Matrix.diagonal_one]
      exact validEig_diagSolver _)
    (by
      rw [← Matrix.one_fin_two, map_cplx_complex, ← Matrix.diagonal_one]
      exact validEig_shearSolver_two 1)

/-- C15: for a square diagonalizable `A` (`A = V·diag(Λ)·V⁻¹`, `V`
invertible) and scalar functions `f`, `g`, there are matrices `F` and `G`
that `funm(A, f)` and `funm(A, g)` return whichever valid eigendecomposition
the solver gives, such that `funm(A, λ ↦ f(λ)·g(λ))` returns `F·G`,
`funm(A, identity)` returns `A`, `F` commutes with `A`, and `F` commutes
with `G`. -/
theorem funm_multiplicative {α : Type} [CplxCast α] {n : ℕ} (M : Matrix (Fin n) (Fin n) α)
    (f g : ℂ → ℂ) (V : Matrix (Fin n) (Fin n) ℂ) (ev : Fin n → ℂ) (hV : IsUnit V.det)
    (hM : M.map CplxCast.cplx = V * Matrix.diagonal ev * V⁻¹) :
    ∃ F G : Matrix (Fin n) (Fin n) ℂ,
      (∀ es : Solver, ValidEig (M.map CplxCast.cplx) (es n (M.map CplxCast.cplx)) →
        funm es (Mat.ofMatrix M) f = Except.ok (Mat.ofMatrix F) ∧
          funm es (Mat.ofMatrix M) g = Except.ok (Mat.ofMatrix G) ∧
          funm es (Mat.ofMatrix M) (fun x => f x * g x) = Except.ok (Mat.ofMatrix (F * G)) ∧
          funm es (Mat.ofMatrix M) (fun x => x) =
            Except.ok (Mat.ofMatrix (M.map CplxCast.cplx))) ∧
        F * M.map CplxCast.cplx = M.map CplxCast.cplx * F ∧ F * G = G * F := by
  refine ⟨V * Matrix.diagonal (fun i => f (ev i)) * V⁻¹,
    V * Matrix.diagonal (fun i => g (ev i)) * V⁻¹, ?_, ?_, ?_⟩
  · intro es hes
    refine ⟨funm_eq_of_valid es M f hes V ev hV hM, funm_eq_of_valid es M g hes V ev hV hM,
      ?_, ?_⟩
    · rw [funm_eq_of_valid es M (fun x => f x * g x) hes V ev hV hM, reconstruction_mul V _ _ hV]
    · rw [funm_eq_of_valid es M (fun x => x) hes V ev hV hM, hM]
  · rw [hM]
    exact reconstruction_comm V _ _ hV
  · exact reconstruction_comm V _ _ hV

/-- Witness of C15, at `diag(1, 2)` with `exp` and `cos`, the solver
returning the identity basis. -/
theorem funm_multiplicative_witness :
    ∃ F G : Matrix (Fin 2) (Fin 2) ℂ,
      (funm diagSolver (Mat.ofMatrix (Matrix.diagonal ![(1 : ℂ), 2])) Complex.exp =
            Except.ok (Mat.ofMatrix F) ∧
          funm diagSolver (Mat.ofMatrix (Matrix.diagonal ![(1 : ℂ), 2])) Complex.cos =
            Except.ok (Mat.ofMatrix G) ∧
          funm diagSolver (Mat.ofMatrix (Matrix.diagonal ![(1 : ℂ), 2]))
              (fun x => Complex.exp x * Complex.cos x) =
            Except.ok (Mat.ofMatrix (F * G)) ∧
          funm diagSolver (Mat.ofMatrix (Matrix.diagonal ![(1 : ℂ), 2])) (fun x => x) =
            Except.ok (Mat.ofMatrix ((Matrix.diagonal ![(1 : ℂ), 2]).map CplxCast.cplx))) ∧
        F * (Matrix.diagonal ![(1 : ℂ), 2]).map CplxCast.cplx =
          (Matrix.diagonal ![(1 : ℂ), 2]).map CplxCast.cplx * F ∧
        F * G = G * F := by
  obtain ⟨F, G, h, hA, hG⟩ :=
    funm_multiplicative (Matrix.diagonal ![(1 : ℂ), 2]) Complex.exp Complex.cos 1
      ![(1 : ℂ), 2] (decomposition_of_diagonal ![(1 : ℂ), 2]).1
      (decomposition_of_diagonal ![(1 : ℂ), 2]).2
  exact ⟨F, G, h diagSolver (validEig_diagSolver ![(1 : ℂ), 2]), hA, hG⟩

/-- C16: for a square diagonalizable `A` (`A = V·diag(Λ)·V⁻¹`, `V`
invertible), there are matrices `S` and `C` that `sinm(A)` and `cosm(A)`
return whichever valid eigendecomposition the solver gives at each call,
and `S·S + C·C` is the identity matrix of the size of `A`. -/
theorem sinm_sq_add_cosm_sq {α : Type} [CplxCast α] {n : ℕ} (M : Matrix (Fin n) (Fin n) α)
    (V : Matrix (Fin n) (Fin n) ℂ) (ev : Fin n → ℂ) (hV : IsUnit V.det)
    (hM : M.map CplxCast.cplx = V * Matrix.diagonal ev * V⁻¹) :
    ∃ S C : Matrix (Fin n) (Fin n) ℂ,
      (∀ es : Solver, ValidEig (M.map CplxCast.cplx) (es n (M.map CplxCast.cplx)) →
        sinm es (Mat.ofMatrix M) = Except.ok (Mat.ofMatrix S) ∧
          cosm es (Mat.ofMatrix M) = Except.ok (Mat.ofMatrix C)) ∧
        S * S + C * C = 1 := by
  refine ⟨V * Matrix.diagonal (fun i => Complex.sin (ev i)) * V⁻¹,
    V * Matrix.diagonal (fun i => Complex.cos (ev i)) * V⁻¹, ?_, ?_⟩
  · intro es hes
    exact ⟨funm_eq_of_valid es M Complex.sin hes V ev hV hM,
      funm_eq_of_valid es M Complex.cos hes V ev hV hM⟩
  · rw [reconstruction_mul V _ _ hV, reconstruction_mul V _ _ hV, reconstruction_add]
    have h1 : (fun i => Complex.sin (ev i) * Complex.sin (ev i) +
        Complex.cos (ev i) * Complex.cos (ev i)) = fun _ => (1 : ℂ) := by
      funext i
      have h := Complex.sin_sq_add_cos_sq (ev i)
      rw [pow_two, pow_two] at h
      exact h
    rw [h1]
    exact reconstruction_one V hV

/-- Witness of C16, at `diag(1, 2)`, the solver returning the identity
basis. -/
theorem sinm_sq_add_cosm_sq_witness :
    ∃ S C : Matrix (Fin 2) (Fin 2) ℂ,
      (sinm diagSolver (Mat.ofMatrix (Matrix.diagonal ![(1 : ℂ), 2])) =
            Except.ok (Mat.ofMatrix S) ∧
          cosm diagSolver (Mat.ofMatrix (Matrix.diagonal ![(1 : ℂ), 2])) =
            Except.ok (Mat.ofMatrix C)) ∧
        S * S + C * C = 1 := by
  obtain ⟨S, C, h, hSC⟩ :=
    sinm_sq_add_cosm_sq (Matrix.diagonal ![(1 : ℂ), 2]) 1 ![(1 : ℂ), 2]
      (decomposition_of_diagonal ![(1 : ℂ), 2]).1 (decomposition_of_diagonal ![(1 : ℂ), 2]).2
  exact ⟨S, C, h diagSolver (validEig_diagSolver ![(1 : ℂ), 2]), hSC⟩

end qpp
